import Mathlib

/-!
Verification of a Shor-algorithm repository (files `module_exp.py` and `main.py`).

This file gives a shallow embedding of the classical core of the code —
the arithmetic transform `ModularExp.apply`, the phase-measurement decoder
`process_measurement` (including Python's `Fraction.limit_denominator`
continued-fraction algorithm), the prime-power shortcut
`find_factor_of_prime_power`, the classical order finder
`naive_order_finder`, the input validation shared with
`quantum_order_finder`, and the `find_factor` control loop — and proves or
refutes the specification claims about them.

Modelling conventions:
* Python integers are `Nat` (all quantities occurring here are non-negative).
* A raised `ValueError` is modelled as `Except.error PyErr.valueError`.
* Python floats are modelled by exact rationals `ℚ`.  The float
  `exponent_as_integer / 2 ** exponent_num_bits` equals the exact rational
  whenever the numerator fits in the double mantissa, and
  `Fraction.from_float` recovers the float exactly, so on that domain the
  model coincides with the code.  Likewise the float `math.pow(n, 1 / k)`
  in `find_factor_of_prime_power` is modelled by the exact real k-th root,
  whose floor is `iroot n k` below; `math.floor(math.log2(n))` is
  `Nat.log 2 n`.
* Unbounded loops (the `while` of `naive_order_finder`, the convergent loop
  of `limit_denominator`) are written with an explicit fuel argument that is
  provably sufficient, so that every definition is executable.
* The external sampler (`cirq.sample`) and the primality oracle
  (`sympy.isprime`) are injected dependencies: the sampler is a function
  argument, primality is `Nat.Prime` (the oracle is exact by contract).
-/

namespace Shor

/- The Batteries rational-number operations are marked irreducible, which
blocks kernel evaluation of closed rational expressions; restore the default
reducibility locally so that concrete instances can be settled by decide. -/
attribute [local semireducible] Rat.mul Rat.inv Rat.add Rat.sub

/-- `ModularExp.apply` from `module_exp.py`: the classical action of the
reversible modular-exponentiation gate on register values.  If the target
value is at least the modulus it is returned unchanged, otherwise it is
multiplied by `base ^ exponent` modulo `modulus`. -/
def ModularExp.apply (target exponent base modulus : Nat) : Nat :=
  if modulus ≤ target then target
  else (target * base ^ exponent) % modulus

/-- C2: for non-negative arguments with `modulus ≥ 1`, `ModularExp.apply`
returns the target unchanged when it is at least the modulus, and otherwise
returns `(target * base ^ exponent) % modulus`; in particular
`apply 5 3 2 7 = 5` and `apply 9 1 2 7 = 9`. -/
theorem C2_modular_exp_apply (t e b m : Nat) (hm : 1 ≤ m) :
    ((m ≤ t → ModularExp.apply t e b m = t) ∧
      (t < m → ModularExp.apply t e b m = (t * b ^ e) % m)) ∧
    ModularExp.apply 5 3 2 7 = 5 ∧ ModularExp.apply 9 1 2 7 = 9 := by
  refine ⟨⟨fun h => ?_, fun h => ?_⟩, by decide, by decide⟩
  · simp [ModularExp.apply, h]
  · simp [ModularExp.apply, Nat.not_le.mpr h]

/-- Witness for C2 at a concrete input. -/
theorem C2_modular_exp_apply_witness :
    1 ≤ 7 ∧ ModularExp.apply 5 3 2 7 = 5 :=
  ⟨by decide, (C2_modular_exp_apply 5 3 2 7 (by decide)).2.1⟩

/-- C10: for `modulus ≥ 1` and a base coprime to the modulus, the map
`target ↦ ModularExp.apply target e base modulus` (exponent fixed) is
injective on `Nat`, restricts to a bijection of `[0, modulus)` onto itself,
and fixes every target at or above the modulus: the reversibility needed for
the gate to be a unitary. -/
theorem C10_modular_exp_bijective (e b m : Nat) (hm : 1 ≤ m)
    (hco : Nat.Coprime b m) :
    Function.Injective (fun t => ModularExp.apply t e b m) ∧
    Set.BijOn (fun t => ModularExp.apply t e b m) (Set.Iio m) (Set.Iio m) ∧
    (∀ t, m ≤ t → ModularExp.apply t e b m = t) := by
  have hcop : Nat.Coprime (b ^ e) m := hco.pow_left e
  have hfix : ∀ t, m ≤ t → ModularExp.apply t e b m = t := by
    intro t ht; simp [ModularExp.apply, ht]
  have hlt : ∀ t, t < m → ModularExp.apply t e b m = (t * b ^ e) % m := by
    intro t ht; simp [ModularExp.apply, Nat.not_le.mpr ht]
  have hmaps : ∀ t, t < m → ModularExp.apply t e b m < m := by
    intro t ht
    rw [hlt t ht]
    exact Nat.mod_lt _ hm
  have hinj0 : ∀ t₁ t₂, t₁ < m → t₂ < m →
      ModularExp.apply t₁ e b m = ModularExp.apply t₂ e b m → t₁ = t₂ := by
    intro t₁ t₂ h₁ h₂ h
    rw [hlt t₁ h₁, hlt t₂ h₂] at h
    have hmc : Nat.gcd m (b ^ e) = 1 := (Nat.coprime_comm.mp hcop)
    have hmod : t₁ ≡ t₂ [MOD m] :=
      Nat.ModEq.cancel_right_of_coprime hmc h
    calc t₁ = t₁ % m := (Nat.mod_eq_of_lt h₁).symm
    _ = t₂ % m := hmod
    _ = t₂ := Nat.mod_eq_of_lt h₂
  have hinj : Function.Injective (fun t => ModularExp.apply t e b m) := by
    intro t₁ t₂ h
    simp only at h
    by_cases h₁ : t₁ < m <;> by_cases h₂ : t₂ < m
    · exact hinj0 t₁ t₂ h₁ h₂ h
    · exfalso
      rw [hfix t₂ (Nat.le_of_not_lt h₂)] at h
      exact h₂ (h ▸ hmaps t₁ h₁)
    · exfalso
      rw [hfix t₁ (Nat.le_of_not_lt h₁)] at h
      exact h₁ (h ▸ hmaps t₂ h₂)
    · rw [hfix t₁ (Nat.le_of_not_lt h₁), hfix t₂ (Nat.le_of_not_lt h₂)] at h
      exact h
  refine ⟨hinj, ?_, hfix⟩
  have hfin : (Set.Iio m).Finite := Set.finite_Iio m
  have hmapsTo : Set.MapsTo (fun t => ModularExp.apply t e b m)
      (Set.Iio m) (Set.Iio m) := by
    intro t ht
    exact hmaps t ht
  exact (hfin.injOn_iff_bijOn_of_mapsTo hmapsTo).mp hinj.injOn

/-- Witness for C10 at a concrete input. -/
theorem C10_modular_exp_bijective_witness :
    ModularExp.apply 7 1 2 5 = 7 :=
  (C10_modular_exp_bijective 1 2 5 (by decide) (by decide)).2.2 7 (by decide)

/-- Marker for a raised Python `ValueError`. -/
inductive PyErr where
  | valueError
deriving DecidableEq

/-- The `while y != 1` loop of `naive_order_finder` (main.py): starting from
`r, y`, repeatedly sets `y := (x * y) % n` and `r := r + 1` until `y = 1`,
returning that `r`.  The loop in the source is unbounded; here it carries a
fuel argument, and `naive_loop_reaches` below proves that fuel `n` is never
exhausted on valid inputs, so the embedding computes exactly the loop. -/
def naive_loop (x n : Nat) : Nat → Nat → Nat → Option Nat
  | 0, _, _ => none
  | fuel + 1, r, y =>
    if y = 1 then some r else naive_loop x n fuel (r + 1) ((x * y) % n)

/-- `naive_order_finder` from main.py: raises `ValueError` unless
`2 ≤ x < n` and `gcd x n = 1`, then runs the brute-force order loop with
`r = 1`, `y = x`. -/
def naive_order_finder (x n : Nat) : Except PyErr (Option Nat) :=
  if x < 2 ∨ n ≤ x ∨ 1 < Nat.gcd x n then Except.error PyErr.valueError
  else Except.ok (naive_loop x n n 1 x)

/-- The convergent loop of Python's `Fraction.limit_denominator` (called in
`process_measurement`): expands the continued fraction of `n / d`, stopping
at the last convergent whose denominator is at most `maxd`.  State is the
two previous convergents `(p0, q0)` and `(p1, q1)`.  The loop in the source
runs until the break; here it carries fuel equal to the starting denominator,
which suffices because `d` strictly decreases (`d := n % d`) each step; the
`d = 0` guard is likewise unreachable because the loop breaks at the last
exact convergent, whose denominator exceeds `maxd`. -/
def lditer : Nat → Nat → Nat → Nat → Nat → Nat → Nat → Nat →
    (Nat × Nat) × (Nat × Nat)
  | 0, p0, q0, p1, q1, _, _, _ => ((p0, q0), (p1, q1))
  | fuel + 1, p0, q0, p1, q1, n, d, maxd =>
    if d = 0 then ((p0, q0), (p1, q1))
    else
      let a := n / d
      let q2 := q0 + a * q1
      if maxd < q2 then ((p0, q0), (p1, q1))
      else lditer fuel p1 q1 (p0 + a * p1) q2 d (n - a * d) maxd

/-- Python's `Fraction.limit_denominator(maxd)` on a non-negative rational:
if the denominator is already at most `maxd` the fraction is returned
unchanged, otherwise the continued-fraction loop runs and the closer of the
two candidate bounds is returned (the upper bound on ties, as in CPython). -/
def limitDenominator (q : ℚ) (maxd : Nat) : ℚ :=
  if q.den ≤ maxd then q
  else
    let st := lditer q.den 0 1 1 0 q.num.toNat q.den maxd
    let k := (maxd - st.1.2) / st.2.2
    let bound1 : ℚ :=
      ((st.1.1 + k * st.2.1 : Nat) : ℚ) / ((st.1.2 + k * st.2.2 : Nat) : ℚ)
    let bound2 : ℚ := (st.2.1 : ℚ) / (st.2.2 : ℚ)
    if |bound2 - q| ≤ |bound1 - q| then bound2 else bound1

/-- `process_measurement` from main.py: the eigenphase is the measured
integer over `2 ^ exponent_num_bits`; its best rational approximation with
denominator at most `n` is computed with `limit_denominator`; numerator `0`
yields no information (`none`); otherwise the denominator `r` is returned
provided the exact integer check `x ^ r % n = 1` passes, else `none`. -/
def process_measurement (m B x n : Nat) : Option Nat :=
  let eigenphase : ℚ := (m : ℚ) / 2 ^ B
  let f := limitDenominator eigenphase n
  if f.num = 0 then none
  else if x ^ f.den % n ≠ 1 then none
  else some f.den

/-- Fuel-carrying halving loop computing the binary length of `n`: the model
of Python's `int.bit_length` (and, minus one, of `math.floor(math.log2 n)`
for `n ≥ 1`).  Fuel `n` always suffices since `n / 2 < n` for `n ≥ 1`. -/
def bitLengthAux : Nat → Nat → Nat
  | 0, _ => 0
  | fuel + 1, n => if n = 0 then 0 else bitLengthAux fuel (n / 2) + 1

/-- `n.bit_length()`: the number of binary digits of `n` (0 for `n = 0`). -/
def bitLength (n : Nat) : Nat := bitLengthAux n n

/-- `quantum_order_finder` from main.py: the same precondition check as the
naive finder, then one measurement of the order-finding circuit — obtained
from the external sampler, injected here as the function `sample` — decoded
by `process_measurement`.  The exponent register built in
`make_order_finding_circuit` has `2 * L + 3` qubits for `L = n.bit_length()`,
which fixes the decoder's bit-width argument. -/
def quantum_order_finder (sample : Nat → Nat → Nat) (x n : Nat) :
    Except PyErr (Option Nat) :=
  if x < 2 ∨ n ≤ x ∨ 1 < Nat.gcd x n then Except.error PyErr.valueError
  else Except.ok (process_measurement (sample x n) (2 * bitLength n + 3) x n)

/-- A fraction whose denominator already meets the bound is returned
unchanged by `limit_denominator`. -/
theorem limitDenominator_eq_self {q : ℚ} {maxd : Nat} (h : q.den ≤ maxd) :
    limitDenominator q maxd = q := by
  unfold limitDenominator
  exact if_pos h

example : limitDenominator ((683 : ℚ) / 8192) 21 = 1 / 12 := by decide

example : process_measurement 683 13 2 21 = some 12 := by decide

example : process_measurement 4 4 4 15 = some 4 := by decide

/-- C8: both order finders raise `ValueError` exactly when `x < 2`, or
`n ≤ x`, or `gcd x n > 1`, and on all other inputs no such error is
raised. -/
theorem C8_order_finder_precondition (sample : Nat → Nat → Nat) (x n : Nat) :
    (naive_order_finder x n = Except.error PyErr.valueError ↔
      (x < 2 ∨ n ≤ x ∨ 1 < Nat.gcd x n)) ∧
    (quantum_order_finder sample x n = Except.error PyErr.valueError ↔
      (x < 2 ∨ n ≤ x ∨ 1 < Nat.gcd x n)) := by
  constructor
  · unfold naive_order_finder
    split
    · simp_all
    · simp_all
  · unfold quantum_order_finder
    split
    · simp_all
    · simp_all

/-- Transfer between the integer congruence `x ^ s % n = 1` used by the code
and the equation `x ^ s = 1` in `ZMod n`. -/
theorem pow_mod_eq_one_iff {x n : Nat} (hn : 2 ≤ n) (s : Nat) :
    x ^ s % n = 1 ↔ (x : ZMod n) ^ s = 1 := by
  have h1 : (1 : Nat) % n = 1 := Nat.mod_eq_of_lt (by omega)
  constructor
  · intro h
    have h2 := (ZMod.natCast_eq_natCast_iff' (x ^ s) 1 n).mpr (by rw [h, h1])
    rwa [Nat.cast_pow, Nat.cast_one] at h2
  · intro h
    have h2 := (ZMod.natCast_eq_natCast_iff' (x ^ s) 1 n).mp
      (by rw [Nat.cast_pow, Nat.cast_one]; exact h)
    rwa [h1] at h2

/-- A base coprime to the modulus has a multiplicative order: a least
positive `r₀` with `x ^ r₀ % n = 1`, and it is smaller than `n` (it divides
the totient). -/
theorem order_exists {x n : Nat} (hx2 : 2 ≤ x) (hxn : x < n)
    (hco : Nat.gcd x n = 1) :
    ∃ r₀, 0 < r₀ ∧ r₀ < n ∧ x ^ r₀ % n = 1 ∧
      ∀ s, 0 < s → s < r₀ → x ^ s % n ≠ 1 := by
  have hn : 2 ≤ n := by omega
  haveI : NeZero n := ⟨by omega⟩
  obtain ⟨u, hu⟩ := (ZMod.isUnit_iff_coprime x n).mpr hco
  have horder : orderOf ((x : ZMod n)) = orderOf u := by
    rw [← hu, orderOf_units]
  have hpos : 0 < orderOf ((x : ZMod n)) := by
    rw [horder]; exact orderOf_pos u
  have hlt : orderOf ((x : ZMod n)) < n := by
    have hdvd : orderOf u ∣ Fintype.card (ZMod n)ˣ := orderOf_dvd_card
    rw [ZMod.card_units_eq_totient n] at hdvd
    have htpos : 0 < Nat.totient n := Nat.totient_pos.mpr (by omega)
    have hle : orderOf u ≤ Nat.totient n := Nat.le_of_dvd htpos hdvd
    have := Nat.totient_lt n (by omega)
    omega
  refine ⟨orderOf ((x : ZMod n)), hpos, hlt, ?_, ?_⟩
  · exact (pow_mod_eq_one_iff hn _).mpr (pow_orderOf_eq_one _)
  · intro s hs hslt hmod
    have h1 := (pow_mod_eq_one_iff hn s).mp hmod
    exact absurd (orderOf_le_of_pow_eq_one hs h1) (by omega)

/-- The brute-force loop, started at step `r` with running value
`x ^ r % n`, returns the true order `r₀` provided it has enough fuel to
reach it. -/
theorem naive_loop_reaches {x n r₀ : Nat}
    (h1 : x ^ r₀ % n = 1)
    (hmin : ∀ s, 0 < s → s < r₀ → x ^ s % n ≠ 1) :
    ∀ fuel r, 0 < r → r ≤ r₀ → r₀ - r < fuel →
      naive_loop x n fuel r (x ^ r % n) = some r₀ := by
  intro fuel
  induction fuel with
  | zero => intro r _ _ h; omega
  | succ fuel ih =>
    intro r hr hrle hfuel
    by_cases hy : x ^ r % n = 1
    · have hreq : r = r₀ := by
        by_contra hne
        exact hmin r hr (by omega) hy
      subst hreq
      rw [naive_loop, if_pos hy]
    · have hlt : r < r₀ := by
        rcases Nat.lt_or_ge r r₀ with h | h
        · exact h
        · exact absurd (le_antisymm hrle h ▸ h1) hy
      have hstep : (x * (x ^ r % n)) % n = x ^ (r + 1) % n := by
        rw [Nat.mul_mod, Nat.mod_mod, ← Nat.mul_mod, pow_succ, mul_comm]
      rw [naive_loop, if_neg hy, hstep]
      exact ih (r + 1) (by omega) (by omega) (by omega)

/-- C9: on valid inputs (`2 ≤ x < n`, `gcd x n = 1`) the brute-force loop
of `naive_order_finder`, run with its start state `r = 1`, `y = x`,
terminates: it reaches `y = 1` within `n` iterations and produces a
result. -/
theorem C9_naive_loop_terminates (x n : Nat) (hx2 : 2 ≤ x) (hxn : x < n)
    (hco : Nat.gcd x n = 1) :
    ∃ r, naive_loop x n n 1 x = some r := by
  obtain ⟨r₀, hpos, hlt, h1, hmin⟩ := order_exists hx2 hxn hco
  refine ⟨r₀, ?_⟩
  have h := naive_loop_reaches h1 hmin n 1 (by omega) hpos (by omega)
  rwa [pow_one, Nat.mod_eq_of_lt hxn] at h

/-- Witness for C9 at a concrete input. -/
theorem C9_naive_loop_terminates_witness :
    2 ≤ 2 ∧ 2 < 3 ∧ Nat.gcd 2 3 = 1 ∧ ∃ r, naive_loop 2 3 3 1 2 = some r :=
  ⟨by decide, by decide, by decide,
    C9_naive_loop_terminates 2 3 (by decide) (by decide) (by decide)⟩

/-- C7: on valid inputs `naive_order_finder` returns some `r` with
`x ^ r % n = 1` such that no smaller positive exponent satisfies this:
it computes the multiplicative order of `x` modulo `n`. -/
theorem C7_naive_order_finder_correct (x n : Nat) (hx2 : 2 ≤ x)
    (hxn : x < n) (hco : Nat.gcd x n = 1) :
    ∃ r, naive_order_finder x n = Except.ok (some r) ∧ x ^ r % n = 1 ∧
      ∀ s, 0 < s → s < r → x ^ s % n ≠ 1 := by
  obtain ⟨r₀, hpos, hlt, h1, hmin⟩ := order_exists hx2 hxn hco
  refine ⟨r₀, ?_, h1, hmin⟩
  unfold naive_order_finder
  rw [if_neg (by rw [hco]; omega)]
  have h := naive_loop_reaches h1 hmin n 1 (by omega) hpos (by omega)
  rw [pow_one, Nat.mod_eq_of_lt hxn] at h
  rw [h]

/-- Witness for C7 at a concrete input. -/
theorem C7_naive_order_finder_correct_witness :
    2 ≤ 7 ∧ 7 < 15 ∧ Nat.gcd 7 15 = 1 ∧
      ∃ r, naive_order_finder 7 15 = Except.ok (some r) ∧
        7 ^ r % 15 = 1 ∧ ∀ s, 0 < s → s < r → 7 ^ s % 15 ≠ 1 :=
  ⟨by decide, by decide, by decide,
    C7_naive_order_finder_correct 7 15 (by decide) (by decide) (by decide)⟩

/-- Largest `c ≤ b` with `c ^ k ≤ n` (and `0` when there is none). -/
def irootAux (n k : Nat) : Nat → Nat
  | 0 => 0
  | b + 1 => if (b + 1) ^ k ≤ n then b + 1 else irootAux n k b

/-- Floor of the real `k`-th root of `n`: the model of the float
`math.pow(n, 1 / k)` rounded down, exact wherever the float root is accurate
to within rounding. -/
def iroot (n k : Nat) : Nat := irootAux n k n

/-- The body of the `for k in range(...)` loop of
`find_factor_of_prime_power` (main.py): for each `k`, test whether the
rounded-down root `c1` or the rounded-up root `c2` is an exact `k`-th root
of `n` and return the first match.  In the exact-real model the rounded-up
root is `c1 + 1` whenever the first test has failed (the root is then not an
integer), which is the only case in which the second test is reached. -/
def prime_power_loop (n : Nat) : List Nat → Option Nat
  | [] => none
  | k :: ks =>
    if iroot n k ^ k = n then some (iroot n k)
    else if (iroot n k + 1) ^ k = n then some (iroot n k + 1)
    else prime_power_loop n ks

/-- `find_factor_of_prime_power` from main.py: try every
`k ∈ range(2, floor(log2 n) + 1)`; `floor(log2 n)` is `bitLength n - 1`, so
the range has `bitLength n - 2` elements starting at `2`. -/
def find_factor_of_prime_power (n : Nat) : Option Nat :=
  prime_power_loop n (List.range' 2 (bitLength n - 2))

theorem bitLengthAux_eq (fuel : Nat) :
    ∀ n, n ≤ fuel → bitLengthAux fuel n =
      if n = 0 then 0 else Nat.log 2 n + 1 := by
  induction fuel with
  | zero =>
    intro n hn
    have h0 : n = 0 := by omega
    subst h0
    rfl
  | succ fuel ih =>
    intro n hn
    by_cases h0 : n = 0
    · subst h0; rfl
    · rw [bitLengthAux, if_neg h0, ih (n / 2) (by omega), if_neg h0]
      by_cases h1 : n = 1
      · subst h1; simp
      · have h2 : n / 2 ≠ 0 := by omega
        rw [if_neg h2]
        have hlog : Nat.log 2 (n / 2) = Nat.log 2 n - 1 := Nat.log_div_base 2 n
        have hpos : 0 < Nat.log 2 n := Nat.log_pos (by omega) (by omega)
        omega

/-- `bitLength` agrees with `Nat.log`: it is `floor(log2 n) + 1` for
positive `n`. -/
theorem bitLength_eq (n : Nat) :
    bitLength n = if n = 0 then 0 else Nat.log 2 n + 1 :=
  bitLengthAux_eq n n le_rfl

theorem irootAux_pow_le {n k : Nat} (hk : k ≠ 0) (b : Nat) :
    irootAux n k b ^ k ≤ n := by
  induction b with
  | zero =>
    rw [show irootAux n k 0 = 0 from rfl, Nat.zero_pow (Nat.pos_of_ne_zero hk)]
    exact Nat.zero_le n
  | succ b ih =>
    rw [irootAux]
    split
    · assumption
    · exact ih

theorem le_irootAux {n k : Nat} (b c : Nat) (hcb : c ≤ b) (hc : c ^ k ≤ n) :
    c ≤ irootAux n k b := by
  induction b with
  | zero => simpa [irootAux] using hcb
  | succ b ih =>
    rw [irootAux]
    split
    · omega
    · rename_i h
      have hne : c ≠ b + 1 := fun hh => h (hh ▸ hc)
      exact ih (by omega)

/-- `iroot` recovers the exact root of a perfect `k`-th power. -/
theorem iroot_exact {n k m : Nat} (hk : k ≠ 0) (hm : m ^ k = n) :
    iroot n k = m := by
  have hmn : m ≤ n := hm ▸ Nat.le_self_pow hk m
  have hle : m ≤ iroot n k := le_irootAux n m hmn (le_of_eq hm)
  have hge : iroot n k ≤ m := by
    have h : iroot n k ^ k ≤ m ^ k := by
      rw [hm]
      exact irootAux_pow_le (n := n) hk n
    exact (Nat.pow_le_pow_iff_left hk).mp h
  omega

theorem prime_power_loop_hit {n m k : Nat} (hk : k ≠ 0) (hm : m ^ k = n)
    (ks : List Nat) : prime_power_loop n (k :: ks) = some m := by
  have hr : iroot n k = m := iroot_exact hk hm
  rw [prime_power_loop, hr, if_pos hm]

theorem prime_power_loop_skip {n k : Nat} (h : ∀ m, m ^ k ≠ n)
    (ks : List Nat) : prime_power_loop n (k :: ks) = prime_power_loop n ks := by
  rw [prime_power_loop, if_neg (h _), if_neg (h _)]

theorem prime_power_loop_skip_all {n : Nat} (l₁ l₂ : List Nat)
    (h : ∀ k ∈ l₁, ∀ m, m ^ k ≠ n) :
    prime_power_loop n (l₁ ++ l₂) = prime_power_loop n l₂ := by
  induction l₁ with
  | nil => rfl
  | cons k ks ih =>
    rw [List.cons_append, prime_power_loop_skip (h k (by simp))]
    exact ih fun k' hk' => h k' (by simp [hk'])

/-- Any value returned by the prime-power loop is an exact `k`-th root of
`n` for one of the tried exponents. -/
theorem prime_power_loop_some {n : Nat} (ks : List Nat) (c : Nat)
    (h : prime_power_loop n ks = some c) : ∃ k ∈ ks, c ^ k = n := by
  induction ks with
  | nil => simp [prime_power_loop] at h
  | cons k ks ih =>
    rw [prime_power_loop] at h
    split at h
    · rename_i hroot
      refine ⟨k, by simp, ?_⟩
      cases h
      exact hroot
    · split at h
      · rename_i hroot
        refine ⟨k, by simp, ?_⟩
        cases h
        exact hroot
      · obtain ⟨k', hk', hc⟩ := ih h
        exact ⟨k', by simp [hk'], hc⟩

example : find_factor_of_prime_power 16 = some 4 := by decide

example : find_factor_of_prime_power 8 = some 2 := by decide

example : find_factor_of_prime_power 21 = none := by decide

/-- C4 counterexample: for the prime power `16 = 2 ^ 4` the function returns
the first exact root it finds, `4 = 2 ^ (4 / 2)` at `k = 2`, not the prime
`2` the claim demands. -/
theorem C4_counterexample :
    Nat.Prime 2 ∧ 2 ≤ 4 ∧ (2 : Nat) ^ 4 = 16 ∧
      find_factor_of_prime_power 16 = some 4 ∧
      find_factor_of_prime_power 16 ≠ some 2 :=
  ⟨by norm_num, by decide, by decide, by decide, by decide⟩

/-- C4 (amended): for every prime `p` and `k ≥ 2`,
`find_factor_of_prime_power (p ^ k)` returns `p ^ (k / q)` where `q` is the
least prime factor of `k` — the root found at the first exponent that
divides `k`.  This is `p` itself exactly when `k` is prime. -/
theorem C4_prime_power_factor (p k : Nat) (hp : Nat.Prime p) (hk : 2 ≤ k) :
    find_factor_of_prime_power (p ^ k) = some (p ^ (k / k.minFac)) := by
  have hp2 : 2 ≤ p := hp.two_le
  have hn1 : p ^ k ≠ 0 := by positivity
  have hkL : k ≤ Nat.log 2 (p ^ k) := by
    have h1 : (2 : Nat) ^ k ≤ p ^ k := Nat.pow_le_pow_left hp2 k
    have h2 : Nat.log 2 ((2 : Nat) ^ k) = k := Nat.log_pow (by omega) k
    calc k = Nat.log 2 ((2 : Nat) ^ k) := h2.symm
    _ ≤ Nat.log 2 (p ^ k) := Nat.log_mono_right h1
  have hqprime : Nat.Prime k.minFac := Nat.minFac_prime (by omega)
  have hq2 : 2 ≤ k.minFac := hqprime.two_le
  have hqdvd : k.minFac ∣ k := Nat.minFac_dvd k
  have hqk : k.minFac ≤ k := Nat.le_of_dvd (by omega) hqdvd
  have hexp : (p ^ (k / k.minFac)) ^ k.minFac = p ^ k := by
    rw [← pow_mul, Nat.div_mul_cancel hqdvd]
  have hnope : ∀ k', 2 ≤ k' → k' < k.minFac → ∀ m, m ^ k' ≠ p ^ k := by
    intro k' h2' hlt m hm
    have hdvd : m ∣ p ^ k := by
      rw [← hm]
      exact dvd_pow_self m (by omega)
    obtain ⟨j, hj, rfl⟩ := (Nat.dvd_prime_pow hp).mp hdvd
    rw [← pow_mul] at hm
    have hjk : j * k' = k := Nat.pow_right_injective hp2 hm
    have : k' ∣ k := ⟨j, by rw [Nat.mul_comm]; omega⟩
    exact absurd (Nat.minFac_le_of_dvd h2' this) (by omega)
  have hrange : bitLength (p ^ k) - 2 = Nat.log 2 (p ^ k) - 1 := by
    rw [bitLength_eq, if_neg hn1]
    omega
  have hsplit : List.range' 2 (Nat.log 2 (p ^ k) - 1) =
      List.range' 2 (k.minFac - 2) ++
        k.minFac :: List.range' (k.minFac + 1) (Nat.log 2 (p ^ k) - k.minFac) := by
    have happ := List.range'_append_1 2 (k.minFac - 2)
      ((Nat.log 2 (p ^ k) - 1) - (k.minFac - 2))
    rw [show ((Nat.log 2 (p ^ k) - 1) - (k.minFac - 2)) + (k.minFac - 2) =
      Nat.log 2 (p ^ k) - 1 from by omega] at happ
    rw [← happ, show 2 + (k.minFac - 2) = k.minFac from by omega,
      show (Nat.log 2 (p ^ k) - 1) - (k.minFac - 2) =
        (Nat.log 2 (p ^ k) - k.minFac) + 1 from by omega,
      List.range'_succ]
  rw [find_factor_of_prime_power, hrange, hsplit,
    prime_power_loop_skip_all _ _ (fun k' hk' => by
      have hmem := List.mem_range'_1.mp hk'
      exact hnope k' hmem.1 (by omega))]
  exact prime_power_loop_hit (by omega) hexp _

/-- Witness for the amended C4 at a concrete input. -/
theorem C4_prime_power_factor_witness :
    find_factor_of_prime_power (2 ^ 2) = some 2 := by
  have h := C4_prime_power_factor 2 2 (by norm_num) (by decide)
  norm_num at h
  exact h

/-- Outcome of `find_factor`: a returned factor, a returned `None`, or the
`AssertionError` raised by `assert 1 < y < n`. -/
inductive FFResult where
  | factor (c : Nat)
  | noFactor
  | assertFail
deriving DecidableEq

/-- The `for _ in range(max_attempts)` loop of `find_factor` (main.py).
The successive values of `random.randint(2, n - 1)` are supplied as the list
`draws`, whose length is the attempt budget.  Each attempt: a lucky shared
factor `gcd x n` is returned if non-trivial; otherwise the injected
`order_finder` is consulted; `None` or an odd order retries;
`y = x ^ (r / 2) % n` is computed and `assert 1 < y < n` checked (its
failure is `FFResult.assertFail`); finally `gcd (y - 1) n` is returned if
non-trivial, else the attempt retries. -/
def find_factor_loop (n : Nat) (order_finder : Nat → Nat → Option Nat) :
    List Nat → FFResult
  | [] => FFResult.noFactor
  | x :: draws =>
    if 1 < Nat.gcd x n ∧ Nat.gcd x n < n then FFResult.factor (Nat.gcd x n)
    else
      match order_finder x n with
      | none => find_factor_loop n order_finder draws
      | some r =>
        if r % 2 ≠ 0 then find_factor_loop n order_finder draws
        else if 1 < x ^ (r / 2) % n ∧ x ^ (r / 2) % n < n then
          (if 1 < Nat.gcd (x ^ (r / 2) % n - 1) n ∧
              Nat.gcd (x ^ (r / 2) % n - 1) n < n then
            FFResult.factor (Nat.gcd (x ^ (r / 2) % n - 1) n)
          else find_factor_loop n order_finder draws)
        else FFResult.assertFail

/-- `find_factor` from main.py: primality shortcut (the exact external
oracle `sympy.isprime` is `Nat.Prime`), evenness shortcut, prime-power
shortcut, then the retry loop. -/
def find_factor (n : Nat) (order_finder : Nat → Nat → Option Nat)
    (draws : List Nat) : FFResult :=
  if Nat.Prime n then FFResult.noFactor
  else if n % 2 = 0 then FFResult.factor 2
  else
    match find_factor_of_prime_power n with
    | some c => FFResult.factor c
    | none => find_factor_loop n order_finder draws

/-- A value returned by the prime-power shortcut is a non-trivial divisor. -/
theorem find_factor_of_prime_power_bounds {n c : Nat} (hn : 2 ≤ n)
    (h : find_factor_of_prime_power n = some c) :
    n % c = 0 ∧ 1 < c ∧ c < n := by
  obtain ⟨k, hk, hck⟩ := prime_power_loop_some _ c h
  have hk2 : 2 ≤ k := (List.mem_range'_1.mp hk).1
  have hc2 : 2 ≤ c := by
    rcases Nat.lt_or_ge c 2 with hlt | hge
    · interval_cases c
      · rw [Nat.zero_pow (by omega)] at hck; omega
      · rw [one_pow] at hck; omega
    · exact hge
  have hcn : c < n := by
    have hsq : c * c ≤ c ^ k := by
      calc c * c = c ^ 2 := (sq c).symm
      _ ≤ c ^ k := Nat.pow_le_pow_right (by omega) hk2
    have h2 : c < c * c := by nlinarith
    omega
  have hdvd : c ∣ n := hck ▸ dvd_pow_self c (by omega)
  exact ⟨Nat.mod_eq_zero_of_dvd hdvd, by omega, hcn⟩

/-- A factor produced by the retry loop is a non-trivial divisor. -/
theorem find_factor_loop_factor {n c : Nat} {of : Nat → Nat → Option Nat}
    {draws : List Nat} (h : find_factor_loop n of draws = FFResult.factor c) :
    n % c = 0 ∧ 1 < c ∧ c < n := by
  induction draws with
  | nil => simp [find_factor_loop] at h
  | cons x draws ih =>
    rw [find_factor_loop] at h
    by_cases h1 : 1 < Nat.gcd x n ∧ Nat.gcd x n < n
    · rw [if_pos h1] at h
      cases h
      exact ⟨Nat.mod_eq_zero_of_dvd (Nat.gcd_dvd_right x n), h1.1, h1.2⟩
    · rw [if_neg h1] at h
      rcases hof : of x n with _ | r
      · rw [hof] at h
        dsimp only at h
        exact ih h
      · rw [hof] at h
        dsimp only at h
        by_cases hodd : r % 2 ≠ 0
        · rw [if_pos hodd] at h
          exact ih h
        · rw [if_neg hodd] at h
          by_cases hy : 1 < x ^ (r / 2) % n ∧ x ^ (r / 2) % n < n
          · rw [if_pos hy] at h
            by_cases hc : 1 < Nat.gcd (x ^ (r / 2) % n - 1) n ∧
                Nat.gcd (x ^ (r / 2) % n - 1) n < n
            · rw [if_pos hc] at h
              cases h
              exact ⟨Nat.mod_eq_zero_of_dvd
                (Nat.gcd_dvd_right (x ^ (r / 2) % n - 1) n), hc.1, hc.2⟩
            · rw [if_neg hc] at h
              exact ih h
          · rw [if_neg hy] at h
            exact absurd h (by simp)

/-- C5: for every `n ≥ 2`, every order finder, every attempt budget and
every sequence of random draws, a value returned by `find_factor` is a
non-trivial divisor: `n % c = 0` and `1 < c < n`. -/
theorem C5_find_factor_sound (n : Nat) (order_finder : Nat → Nat → Option Nat)
    (draws : List Nat) (c : Nat) (hn : 2 ≤ n)
    (h : find_factor n order_finder draws = FFResult.factor c) :
    n % c = 0 ∧ 1 < c ∧ c < n := by
  rw [find_factor] at h
  by_cases hp : Nat.Prime n
  · rw [if_pos hp] at h
    exact absurd h (by simp)
  · rw [if_neg hp] at h
    by_cases he : n % 2 = 0
    · rw [if_pos he] at h
      have hc2 : c = 2 := by cases h; rfl
      subst hc2
      have hne : n ≠ 2 := fun hh => hp (hh ▸ Nat.prime_two)
      exact ⟨he, by omega, by omega⟩
    · rw [if_neg he] at h
      rcases hffpp : find_factor_of_prime_power n with _ | c'
      · rw [hffpp] at h
        dsimp only at h
        exact find_factor_loop_factor h
      · rw [hffpp] at h
        dsimp only at h
        have hcc : c' = c := by cases h; rfl
        subst hcc
        exact find_factor_of_prime_power_bounds hn hffpp

/-- Witness for C5 at a concrete input. -/
theorem C5_find_factor_sound_witness :
    2 ≤ 4 ∧ (4 % 2 = 0 ∧ 1 < 2 ∧ 2 < 4) :=
  ⟨by decide,
    C5_find_factor_sound 4 (fun _ _ => none) [] 2 (by decide) (by decide)⟩

/-- C1 counterexample: the claim fails for a value the order finder can
return that is a proper multiple of the true order.  With `n = 21`, `x = 2`
(coprime, `2 ≤ x < n`), the decoder `process_measurement` — fed the
measurement `683` of the `13`-bit exponent register, an outcome of positive
probability since the eigenphases `s/6` are not dyadic — returns the even
verified order `r = 12` (indeed `2 ^ 12 % 21 = 1`), but
`y = 2 ^ (12 / 2) % 21 = 1` violates `1 < y < n`, so `find_factor` hits the
assertion failure. -/
theorem C1_counterexample :
    Nat.gcd 2 21 = 1 ∧ 2 ≤ 2 ∧ 2 < 21 ∧
      process_measurement 683 13 2 21 = some 12 ∧ 12 % 2 = 0 ∧
      ¬(1 < 2 ^ (12 / 2) % 21 ∧ 2 ^ (12 / 2) % 21 < 21) ∧
      find_factor 21 (fun x n => process_measurement 683 13 x n) [2] =
        FFResult.assertFail :=
  ⟨by decide, by decide, by decide, by decide, by decide, by decide, by decide⟩

/-- For a base coprime to `n` whose true multiplicative order `r` is even,
the value `y = x ^ (r / 2) % n` lies strictly between `1` and `n`: it is not
`0` (coprimality), not `1` (minimality of the order at `r / 2 < r`), and is
a remainder mod `n`. -/
theorem y_of_true_order_bounds (x n r : Nat) (hx2 : 2 ≤ x) (hxn : x < n)
    (hco : Nat.gcd x n = 1) (hrpos : 0 < r)
    (hmin : ∀ s, 0 < s → s < r → x ^ s % n ≠ 1) (hreven : r % 2 = 0) :
    1 < x ^ (r / 2) % n ∧ x ^ (r / 2) % n < n := by
  have hn : 2 ≤ n := by omega
  have hne1 : x ^ (r / 2) % n ≠ 1 := hmin _ (by omega) (by omega)
  have hlt : x ^ (r / 2) % n < n := Nat.mod_lt _ (by omega)
  have hne0 : x ^ (r / 2) % n ≠ 0 := by
    intro h0
    have hdvd : n ∣ x ^ (r / 2) := Nat.dvd_of_mod_eq_zero h0
    have hcop : Nat.Coprime (x ^ (r / 2)) n := Nat.Coprime.pow_left _ hco
    have hdg : n ∣ Nat.gcd (x ^ (r / 2)) n := Nat.dvd_gcd hdvd dvd_rfl
    rw [hcop] at hdg
    have := Nat.le_of_dvd one_pos hdg
    omega
  omega

/-- C1 (amended): if every value the order finder can return is the true
multiplicative order of its base (positive, satisfying `x ^ r % n = 1` and
minimal with that property — as `naive_order_finder`\'s results are), then
for draws in `[2, n - 1]` the `assert 1 < y < n` in `find_factor`\'s loop
never fails.  (The quantum order finder can also return a proper multiple of
the order that passes its verification, for which the assertion does fail,
as the counterexample shows.) -/
theorem C1_assert_never_fails (n : Nat)
    (order_finder : Nat → Nat → Option Nat) (draws : List Nat)
    (hdraws : ∀ x ∈ draws, 2 ≤ x ∧ x < n)
    (horder : ∀ x r, 2 ≤ x → x < n → Nat.gcd x n = 1 →
      order_finder x n = some r →
      0 < r ∧ x ^ r % n = 1 ∧ ∀ s, 0 < s → s < r → x ^ s % n ≠ 1) :
    find_factor_loop n order_finder draws ≠ FFResult.assertFail := by
  induction draws with
  | nil => simp [find_factor_loop]
  | cons x draws ih =>
    have hx := hdraws x (by simp)
    have ih' := ih fun x' hx' => hdraws x' (by simp [hx'])
    rw [find_factor_loop]
    by_cases h1 : 1 < Nat.gcd x n ∧ Nat.gcd x n < n
    · rw [if_pos h1]
      simp
    · rw [if_neg h1]
      have hgcd : Nat.gcd x n = 1 := by
        have hle : Nat.gcd x n ≤ x := Nat.gcd_le_left n (by omega)
        have hpos : 0 < Nat.gcd x n := Nat.gcd_pos_of_pos_left n (by omega)
        push_neg at h1
        omega
      rcases hof : order_finder x n with _ | r
      · dsimp only
        exact ih'
      · dsimp only
        by_cases hodd : r % 2 ≠ 0
        · rw [if_pos hodd]
          exact ih'
        · rw [if_neg hodd]
          obtain ⟨hrpos, hr1, hmin⟩ := horder x r hx.1 hx.2 hgcd hof
          have hy := y_of_true_order_bounds x n r hx.1 hx.2 hgcd hrpos hmin
            (by omega)
          rw [if_pos hy]
          by_cases hc : 1 < Nat.gcd (x ^ (r / 2) % n - 1) n ∧
              Nat.gcd (x ^ (r / 2) % n - 1) n < n
          · rw [if_pos hc]
            simp
          · rw [if_neg hc]
            exact ih'

/-- Witness for the amended C1 at a concrete input: one attempt on `n = 15`
with draw `x = 7` and an order finder returning the true order `4` of `7`
modulo `15`. -/
theorem C1_assert_never_fails_witness :
    find_factor_loop 15 (fun x _ => if x = 7 then some 4 else none) [7] ≠
      FFResult.assertFail :=
  C1_assert_never_fails 15 (fun x _ => if x = 7 then some 4 else none) [7]
    (by intro x hx; simp at hx; omega)
    (by
      intro x r hx2 hxn hco h
      dsimp only at h
      by_cases h7 : x = 7
      · subst h7
        rw [if_pos rfl] at h
        cases h
        refine ⟨by decide, by decide, ?_⟩
        intro s hs hlt
        interval_cases s <;> decide
      · rw [if_neg h7] at h
        cases h)

/-- The rational `s / r` built from coprime naturals with `r ≠ 0` has
numerator `s` and denominator `r`. -/
theorem rat_div_num_den {s r : Nat} (hr : r ≠ 0) (hco : Nat.Coprime s r) :
    ((s : ℚ) / (r : ℚ)).num = (s : ℤ) ∧ ((s : ℚ) / (r : ℚ)).den = r := by
  have hred : (Int.natAbs (s : ℤ)).Coprime r := by simpa using hco
  have heq : (s : ℚ) / (r : ℚ) = (⟨(s : ℤ), r, hr, hred⟩ : ℚ) := by
    have h := Rat.num_div_den (⟨(s : ℤ), r, hr, hred⟩ : ℚ)
    rw [show ((⟨(s : ℤ), r, hr, hred⟩ : ℚ)).num = (s : ℤ) from rfl,
      show ((⟨(s : ℤ), r, hr, hred⟩ : ℚ)).den = r from rfl] at h
    rw [← h]
    push_cast
    rfl
  rw [heq]
  exact ⟨rfl, rfl⟩

/-- C3 counterexample: the claim omits the decoder's verification step.
With `s = 1`, `r = 4` coprime, `r ≤ n = 7`, and the measurement `m = 1` of
`B = 2` bits encoding the eigenphase `1/4 = s/r` exactly, decoding for base
`x = 2` returns `none` — not `r = 4` — because `2 ^ 4 % 7 = 2 ≠ 1` fails
the verification. -/
theorem C3_counterexample :
    Nat.Coprime 1 4 ∧ (1 : Nat) ≤ 1 ∧ (1 : Nat) ≤ 4 ∧ (4 : Nat) ≤ 7 ∧
      ((1 : ℕ) : ℚ) / 2 ^ 2 = ((1 : ℕ) : ℚ) / ((4 : ℕ) : ℚ) ∧
      process_measurement 1 2 2 7 = none :=
  ⟨by decide, by decide, by decide, by decide, by norm_num, by decide⟩

/-- C3 (amended): for coprime `s, r` with `1 ≤ s`, `1 ≤ r ≤ n`, if the
eigenphase `m / 2 ^ B` equals `s / r` exactly and moreover `r` passes the
decoder's verification `x ^ r % n = 1`, then `process_measurement` returns
`r`. -/
theorem C3_phase_decoding (m B x n s r : Nat) (hco : Nat.Coprime s r)
    (hs : 1 ≤ s) (hr : 1 ≤ r) (hrn : r ≤ n)
    (heq : (m : ℚ) / 2 ^ B = (s : ℚ) / (r : ℚ))
    (hver : x ^ r % n = 1) :
    process_measurement m B x n = some r := by
  have hnum : ((m : ℚ) / 2 ^ B).num = (s : ℤ) := by
    rw [heq]
    exact (rat_div_num_den (by omega) hco).1
  have hden : ((m : ℚ) / 2 ^ B).den = r := by
    rw [heq]
    exact (rat_div_num_den (by omega) hco).2
  simp only [process_measurement]
  rw [limitDenominator_eq_self (by rw [hden]; exact hrn)]
  have h0 : ((m : ℚ) / 2 ^ B).num ≠ 0 := by
    rw [hnum]
    exact Int.natCast_ne_zero.mpr (by omega)
  have hv : ¬x ^ ((m : ℚ) / 2 ^ B).den % n ≠ 1 := by
    rw [hden]
    exact not_not_intro hver
  rw [if_neg h0, if_neg hv, hden]

/-- Witness for the amended C3 at a concrete input (`m = 2`, `B = 2`
encoding eigenphase `1/2`, base `4`, modulus `5`, true order `2`). -/
theorem C3_phase_decoding_witness :
    process_measurement 2 2 4 5 = some 2 :=
  C3_phase_decoding 2 2 4 5 1 2 (by decide) (by decide) (by decide)
    (by decide) (by norm_num) (by decide)

/-- C6: `process_measurement` returns `none` exactly when the bounded
continued-fraction approximation of the eigenphase has numerator `0` or its
denominator fails the verification `x ^ r % n = 1`; otherwise it returns
that denominator; and a measurement encoding eigenphase `0` decodes to
`none`. -/
theorem C6_process_measurement_none_iff (m B x n : Nat) (hn : 1 ≤ n) :
    (process_measurement m B x n = none ↔
      ((limitDenominator ((m : ℚ) / 2 ^ B) n).num = 0 ∨
        x ^ (limitDenominator ((m : ℚ) / 2 ^ B) n).den % n ≠ 1)) ∧
    ((limitDenominator ((m : ℚ) / 2 ^ B) n).num ≠ 0 →
      x ^ (limitDenominator ((m : ℚ) / 2 ^ B) n).den % n = 1 →
      process_measurement m B x n =
        some (limitDenominator ((m : ℚ) / 2 ^ B) n).den) ∧
    process_measurement 0 B x n = none := by
  refine ⟨?_, ?_, ?_⟩
  · simp only [process_measurement]
    by_cases h0 : (limitDenominator ((m : ℚ) / 2 ^ B) n).num = 0
    · simp [h0]
    · by_cases hv : x ^ (limitDenominator ((m : ℚ) / 2 ^ B) n).den % n = 1
      · simp [h0, hv]
      · simp [h0, hv]
  · intro h0 hv
    simp only [process_measurement]
    rw [if_neg h0, if_neg (not_not_intro hv)]
  · simp only [process_measurement]
    have hcast : ((0 : ℕ) : ℚ) / 2 ^ B = 0 := by norm_num
    rw [hcast, limitDenominator_eq_self (by simpa using hn)]
    simp

/-- Witness for C6 at a concrete input. -/
theorem C6_process_measurement_none_iff_witness :
    process_measurement 0 3 2 3 = none :=
  (C6_process_measurement_none_iff 0 3 2 3 (by decide)).2.2

end Shor
